import Mathlib

/-!
Shallow embedding of the TOPSIS decision engine of `src/backend/app.py`:
the function `perform_topsis` (normalization, weighting, ideal points,
distances, scores, double-argsort ranking) together with the shape
validation performed around it in `topsis_api`.

The decision matrix is `A : Fin (n + 1) → Fin m → ℝ` (at least one
alternative, `m` criterion columns), the weight vector is `w : Fin m → ℝ`
and the impact vector is `imp : Fin m → Impact`.  Real arithmetic models
the floating-point arithmetic of the source, as the specification demands
that floating-point rounding be tolerated rather than specified.
`numpy.argsort` is modelled as a stable index sort (ties keep the original
order of indices), which is the deterministic behaviour the specification
fixes for tie-breaking.
-/

namespace Topsis

/-- Impact direction of a criterion: the source strings `'+'` and `'-'`. -/
inductive Impact
  | plus
  | minus
deriving DecidableEq

/-- Column-wise Euclidean norms: `norms = np.sqrt((decision_matrix ** 2).sum(axis=0))`. -/
noncomputable def norms {n m : ℕ} (A : Fin (n + 1) → Fin m → ℝ) (j : Fin m) : ℝ :=
  Real.sqrt (∑ i, A i j ^ 2)

/-- Division-by-zero guard: `norms[norms == 0] = 1`. -/
noncomputable def safeNorms {n m : ℕ} (A : Fin (n + 1) → Fin m → ℝ) (j : Fin m) : ℝ :=
  if norms A j = 0 then 1 else norms A j

/-- Normalization step: `normalized_matrix = decision_matrix / norms`. -/
noncomputable def normalized {n m : ℕ} (A : Fin (n + 1) → Fin m → ℝ) (i : Fin (n + 1))
    (j : Fin m) : ℝ :=
  A i j / safeNorms A j

/-- Weighting step: `weighted_matrix = normalized_matrix * weight_array`. -/
noncomputable def weighted {n m : ℕ} (A : Fin (n + 1) → Fin m → ℝ) (w : Fin m → ℝ)
    (i : Fin (n + 1)) (j : Fin m) : ℝ :=
  normalized A i j * w j

/-- Ideal best point: column max for `'+'` impacts, column min for `'-'` impacts. -/
noncomputable def idealBest {n m : ℕ} (A : Fin (n + 1) → Fin m → ℝ) (w : Fin m → ℝ)
    (imp : Fin m → Impact) (j : Fin m) : ℝ :=
  match imp j with
  | Impact.plus => Finset.univ.sup' Finset.univ_nonempty fun i => weighted A w i j
  | Impact.minus => Finset.univ.inf' Finset.univ_nonempty fun i => weighted A w i j

/-- Ideal worst point: column min for `'+'` impacts, column max for `'-'` impacts. -/
noncomputable def idealWorst {n m : ℕ} (A : Fin (n + 1) → Fin m → ℝ) (w : Fin m → ℝ)
    (imp : Fin m → Impact) (j : Fin m) : ℝ :=
  match imp j with
  | Impact.plus => Finset.univ.inf' Finset.univ_nonempty fun i => weighted A w i j
  | Impact.minus => Finset.univ.sup' Finset.univ_nonempty fun i => weighted A w i j

/-- Distance to the ideal best: `np.sqrt(((weighted_matrix - ideal_best) ** 2).sum(axis=1))`. -/
noncomputable def distance_best {n m : ℕ} (A : Fin (n + 1) → Fin m → ℝ) (w : Fin m → ℝ)
    (imp : Fin m → Impact) (i : Fin (n + 1)) : ℝ :=
  Real.sqrt (∑ j, (weighted A w i j - idealBest A w imp j) ^ 2)

/-- Distance to the ideal worst: `np.sqrt(((weighted_matrix - ideal_worst) ** 2).sum(axis=1))`. -/
noncomputable def distance_worst {n m : ℕ} (A : Fin (n + 1) → Fin m → ℝ) (w : Fin m → ℝ)
    (imp : Fin m → Impact) (i : Fin (n + 1)) : ℝ :=
  Real.sqrt (∑ j, (weighted A w i j - idealWorst A w imp j) ^ 2)

/-- Closeness score with the zero-denominator guard of the source
(`denominator[denominator == 0] = 1; topsis_score = distance_worst / denominator`). -/
noncomputable def topsis_score {n m : ℕ} (A : Fin (n + 1) → Fin m → ℝ) (w : Fin m → ℝ)
    (imp : Fin m → Impact) (i : Fin (n + 1)) : ℝ :=
  distance_worst A w imp i /
    (if distance_best A w imp i + distance_worst A w imp i = 0 then 1
     else distance_best A w imp i + distance_worst A w imp i)

/-- C1: every closeness score produced by the engine lies in the closed
interval [0, 1], for every matrix with at least one alternative. -/
theorem score_in_unit_interval {n m : ℕ} (A : Fin (n + 1) → Fin m → ℝ) (w : Fin m → ℝ)
    (imp : Fin m → Impact) (i : Fin (n + 1)) :
    0 ≤ topsis_score A w imp i ∧ topsis_score A w imp i ≤ 1 := by
  have hb : 0 ≤ distance_best A w imp i := Real.sqrt_nonneg _
  have hd : 0 ≤ distance_worst A w imp i := Real.sqrt_nonneg _
  unfold topsis_score
  by_cases h : distance_best A w imp i + distance_worst A w imp i = 0
  · have hw0 : distance_worst A w imp i = 0 := by linarith
    rw [if_pos h, hw0]
    norm_num
  · have hpos : 0 < distance_best A w imp i + distance_worst A w imp i :=
      lt_of_le_of_ne (by linarith) (Ne.symm h)
    rw [if_neg h]
    refine ⟨div_nonneg hd hpos.le, ?_⟩
    rw [div_le_one hpos]
    linarith

/-- C5: when an alternative's distance-to-best plus distance-to-worst is
exactly zero, no error is raised: the denominator is replaced by 1 and the
closeness score is 0. -/
theorem zero_denominator_score_zero {n m : ℕ} (A : Fin (n + 1) → Fin m → ℝ) (w : Fin m → ℝ)
    (imp : Fin m → Impact) (i : Fin (n + 1))
    (h : distance_best A w imp i + distance_worst A w imp i = 0) :
    topsis_score A w imp i = 0 := by
  have hb : 0 ≤ distance_best A w imp i := Real.sqrt_nonneg _
  have hd : 0 ≤ distance_worst A w imp i := Real.sqrt_nonneg _
  have hw0 : distance_worst A w imp i = 0 := by linarith
  unfold topsis_score
  rw [if_pos h, hw0]
  simp

/-- With a single alternative both ideal points coincide with that
alternative, so both distances vanish. -/
theorem singleRow_distances_zero {m : ℕ} (A : Fin (0 + 1) → Fin m → ℝ) (w : Fin m → ℝ)
    (imp : Fin m → Impact) (i : Fin (0 + 1)) :
    distance_best A w imp i + distance_worst A w imp i = 0 := by
  have hi : i = 0 := Fin.fin_one_eq_zero i
  have hbest : ∀ j, idealBest A w imp j = weighted A w 0 j := by
    intro j
    rcases himp : imp j with _ | _ <;>
      simp [idealBest, himp, Finset.univ_unique, Finset.sup'_singleton, Finset.inf'_singleton]
  have hworst : ∀ j, idealWorst A w imp j = weighted A w 0 j := by
    intro j
    rcases himp : imp j with _ | _ <;>
      simp [idealWorst, himp, Finset.univ_unique, Finset.sup'_singleton, Finset.inf'_singleton]
  simp [distance_best, distance_worst, hbest, hworst, hi]

def exA5 : Fin (0 + 1) → Fin 1 → ℝ := fun _ _ => 3

def exW5 : Fin 1 → ℝ := fun _ => 2

def exI5 : Fin 1 → Impact := fun _ => Impact.plus

/-- Witness for C5: a concrete single-alternative input where both
distances are zero, whose score the guarded formula sends to 0. -/
theorem zero_denominator_score_zero_witness : topsis_score exA5 exW5 exI5 0 = 0 :=
  zero_denominator_score_zero exA5 exW5 exI5 0 (singleRow_distances_zero exA5 exW5 exI5 0)

/-- C4: an all-zero criterion column has its zero norm replaced by 1, the
normalized column is all-zero, and the column contributes nothing to the
distance to either ideal point. -/
theorem zero_column_guard {n m : ℕ} (A : Fin (n + 1) → Fin m → ℝ) (w : Fin m → ℝ)
    (imp : Fin m → Impact) (j : Fin m) (h : ∀ i, A i j = 0) :
    safeNorms A j = 1 ∧ (∀ i, normalized A i j = 0) ∧
      ∀ i, (weighted A w i j - idealBest A w imp j) ^ 2 = 0 ∧
        (weighted A w i j - idealWorst A w imp j) ^ 2 = 0 := by
  have hn : norms A j = 0 := by
    unfold norms
    rw [Finset.sum_eq_zero fun i _ => by rw [h i]; ring]
    exact Real.sqrt_zero
  have hs : safeNorms A j = 1 := by rw [safeNorms, if_pos hn]
  have hnorm : ∀ i, normalized A i j = 0 := by
    intro i
    rw [normalized, h i, zero_div]
  have hwt : ∀ i, weighted A w i j = 0 := by
    intro i
    rw [weighted, hnorm i, zero_mul]
  have hfun : (fun i => weighted A w i j) = fun _ : Fin (n + 1) => (0 : ℝ) := funext hwt
  have hbest : idealBest A w imp j = 0 := by
    rcases himp : imp j with _ | _ <;>
      simp [idealBest, himp, hfun, Finset.sup'_const, Finset.inf'_const]
  have hworst : idealWorst A w imp j = 0 := by
    rcases himp : imp j with _ | _ <;>
      simp [idealWorst, himp, hfun, Finset.sup'_const, Finset.inf'_const]
  exact ⟨hs, hnorm, fun i => by rw [hwt i, hbest, hworst]; norm_num⟩

def exA4 : Fin (0 + 1) → Fin 1 → ℝ := fun _ _ => 0

def exW4 : Fin 1 → ℝ := fun _ => 1

def exI4 : Fin 1 → Impact := fun _ => Impact.plus

/-- Witness for C4: a concrete input whose only column is all-zero. -/
theorem zero_column_guard_witness :
    safeNorms exA4 0 = 1 ∧ normalized exA4 0 0 = 0 ∧
      (weighted exA4 exW4 0 0 - idealBest exA4 exW4 exI4 0) ^ 2 = 0 ∧
      (weighted exA4 exW4 0 0 - idealWorst exA4 exW4 exI4 0) ^ 2 = 0 := by
  have h := zero_column_guard exA4 exW4 exI4 0 fun _ => rfl
  exact ⟨h.1, h.2.1 0, (h.2.2 0).1, (h.2.2 0).2⟩

/-- Boolean key order used to model `np.argsort`: indices are compared by
their values, ties broken by the original index order (stable sort). -/
def keyLe {α : Type} [LinearOrder α] [Inhabited α] (v : List α) (i j : ℕ) : Bool :=
  decide (v.getD i default < v.getD j default ∨ (v.getD i default = v.getD j default ∧ i ≤ j))

/-- Strict version of the argsort key order. -/
def keyLt {α : Type} [LinearOrder α] [Inhabited α] (v : List α) (i j : ℕ) : Prop :=
  v.getD i default < v.getD j default ∨ (v.getD i default = v.getD j default ∧ i < j)

instance {α : Type} [LinearOrder α] [Inhabited α] (v : List α) (i j : ℕ) :
    Decidable (keyLt v i j) := by
  unfold keyLt
  infer_instance

/-- Model of `np.argsort v`: the indices `0, …, len v - 1` sorted by the
values of `v`, equal values keeping their original relative order. -/
def argsort {α : Type} [LinearOrder α] [Inhabited α] (v : List α) : List ℕ :=
  (List.range v.length).mergeSort (keyLe v)

theorem keyLe_trans {α : Type} [LinearOrder α] [Inhabited α] (v : List α) :
    ∀ a b c : ℕ, keyLe v a b = true → keyLe v b c = true → keyLe v a c = true := by
  intro a b c hab hbc
  simp only [keyLe, decide_eq_true_eq] at hab hbc ⊢
  rcases hab with h | ⟨h, h'⟩ <;> rcases hbc with g | ⟨g, g'⟩
  · exact Or.inl (h.trans g)
  · exact Or.inl (g ▸ h)
  · exact Or.inl (h ▸ g)
  · exact Or.inr ⟨h.trans g, h'.trans g'⟩

theorem keyLe_total {α : Type} [LinearOrder α] [Inhabited α] (v : List α) :
    ∀ a b : ℕ, (keyLe v a b || keyLe v b a) = true := by
  intro a b
  simp only [keyLe, Bool.or_eq_true, decide_eq_true_eq]
  rcases lt_trichotomy (v.getD a default) (v.getD b default) with h | h | h
  · exact Or.inl (Or.inl h)
  · rcases le_total a b with hab | hab
    · exact Or.inl (Or.inr ⟨h, hab⟩)
    · exact Or.inr (Or.inr ⟨h.symm, hab⟩)
  · exact Or.inr (Or.inl h)

theorem keyLe_antisymm {α : Type} [LinearOrder α] [Inhabited α] (v : List α) :
    ∀ a b : ℕ, keyLe v a b = true → keyLe v b a = true → a = b := by
  intro a b hab hba
  simp only [keyLe, decide_eq_true_eq] at hab hba
  rcases hab with h | ⟨h, h'⟩ <;> rcases hba with g | ⟨g, g'⟩
  · exact absurd g (not_lt_of_lt h)
  · exact absurd h (g ▸ lt_irrefl _)
  · exact absurd g (h ▸ lt_irrefl _)
  · exact le_antisymm h' g'

theorem keyLt_irrefl {α : Type} [LinearOrder α] [Inhabited α] (v : List α) (a : ℕ) :
    ¬ keyLt v a a := by
  rintro (h | ⟨-, h⟩)
  · exact lt_irrefl _ h
  · exact Nat.lt_irrefl _ h

theorem keyLt_asymm {α : Type} [LinearOrder α] [Inhabited α] (v : List α) {a b : ℕ}
    (h : keyLt v a b) : ¬ keyLt v b a := by
  rintro (g | ⟨g, g'⟩) <;> rcases h with h | ⟨h, h'⟩
  · exact absurd g (not_lt_of_lt h)
  · exact absurd g (h ▸ lt_irrefl _)
  · exact absurd h (g ▸ lt_irrefl _)
  · exact Nat.lt_irrefl _ (h'.trans g')

theorem keyLe_of_keyLt {α : Type} [LinearOrder α] [Inhabited α] (v : List α) {a b : ℕ}
    (h : keyLt v a b) : keyLe v a b = true := by
  simp only [keyLe, decide_eq_true_eq]
  rcases h with h | ⟨h, h'⟩
  · exact Or.inl h
  · exact Or.inr ⟨h, h'.le⟩

theorem argsort_perm {α : Type} [LinearOrder α] [Inhabited α] (v : List α) :
    (argsort v).Perm (List.range v.length) :=
  List.mergeSort_perm (List.range v.length) (keyLe v)

theorem argsort_length {α : Type} [LinearOrder α] [Inhabited α] (v : List α) :
    (argsort v).length = v.length := by
  rw [(argsort_perm v).length_eq, List.length_range]

theorem argsort_nodup {α : Type} [LinearOrder α] [Inhabited α] (v : List α) :
    (argsort v).Nodup :=
  (argsort_perm v).symm.nodup (List.nodup_range v.length)

theorem argsort_sorted {α : Type} [LinearOrder α] [Inhabited α] (v : List α) :
    (argsort v).Pairwise fun a b => keyLe v a b = true :=
  List.sorted_mergeSort (keyLe_trans v) (keyLe_total v) (List.range v.length)

theorem argsort_pairwise_keyLt {α : Type} [LinearOrder α] [Inhabited α] (v : List α) :
    (argsort v).Pairwise (keyLt v) := by
  have h := (argsort_sorted v).and (argsort_nodup v)
  refine h.imp ?_
  rintro a b ⟨hab, hne⟩
  simp only [keyLe, decide_eq_true_eq] at hab
  rcases hab with h' | ⟨h', h''⟩
  · exact Or.inl h'
  · exact Or.inr ⟨h', lt_of_le_of_ne h'' hne⟩

/-- Two lists sorted by the stable key order and containing the same
indices are equal: the argsort permutation is unique. -/
theorem sorted_keyLe_unique {α : Type} [LinearOrder α] [Inhabited α] (v : List α)
    {l₁ l₂ : List ℕ} (hp : l₁.Perm l₂)
    (h₁ : l₁.Pairwise fun a b => keyLe v a b = true)
    (h₂ : l₂.Pairwise fun a b => keyLe v a b = true) : l₁ = l₂ :=
  @List.eq_of_perm_of_sorted _ _ ⟨fun a b ha hb => keyLe_antisymm v a b ha hb⟩ _ _ hp h₁ h₂

/-- Position formula for a list sorted strictly by the key order: the index
of an element equals the number of elements with strictly smaller key. -/
theorem indexOf_eq_length_filter_of_sorted {α : Type} [LinearOrder α] [Inhabited α]
    (v : List α) : ∀ l : List ℕ, l.Pairwise (keyLt v) → ∀ i ∈ l,
      l.indexOf i = (l.filter fun j => decide (keyLt v j i)).length := by
  intro l
  induction l with
  | nil => intro _ i hi; exact absurd hi (List.not_mem_nil i)
  | cons a t ih =>
    intro hpw i hi
    have hhead : ∀ b ∈ t, keyLt v a b := (List.pairwise_cons.mp hpw).1
    have htail : t.Pairwise (keyLt v) := (List.pairwise_cons.mp hpw).2
    by_cases hia : i = a
    · subst hia
      rw [List.indexOf_cons_self]
      have hfilter : ((i :: t).filter fun j => decide (keyLt v j i)) = [] := by
        rw [List.filter_eq_nil_iff]
        intro b hb
        simp only [decide_eq_true_eq]
        rcases List.mem_cons.mp hb with rfl | hb'
        · exact keyLt_irrefl v b
        · exact keyLt_asymm v (hhead b hb')
      rw [hfilter]
      rfl
    · have hit : i ∈ t := (List.mem_cons.mp hi).resolve_left hia
      have hlt : keyLt v a i := hhead i hit
      rw [List.indexOf_cons_ne t (Ne.symm hia), List.filter_cons,
        if_pos (by simpa using hlt)]
      simp only [List.length_cons, Nat.succ_eq_add_one]
      rw [ih htail i hit]

/-- The second argsort of a permutation of `range n` is its inverse
permutation, sending each index to its position in the first argsort. -/
theorem argsort_argsort_eq {α : Type} [LinearOrder α] [Inhabited α] (v : List α) :
    argsort (argsort v) = (List.range v.length).map fun k => (argsort v).indexOf k := by
  set p := argsort v with hp
  have hperm : p.Perm (List.range v.length) := argsort_perm v
  have hmem : ∀ k, k < v.length → k ∈ p := fun k hk =>
    hperm.symm.subset (List.mem_range.mpr hk)
  have hidx : ∀ k, k < v.length → p.indexOf k < p.length := fun k hk =>
    List.indexOf_lt_length.mpr (hmem k hk)
  have hget : ∀ k, (hk : k < v.length) → p.getD (p.indexOf k) default = k := by
    intro k hk
    rw [List.getD_eq_getElem p default (hidx k hk)]
    exact List.getElem_indexOf (hidx k hk)
  have hlenp : p.length = v.length := by rw [hp, argsort_length]
  -- the right-hand side is a permutation of `range p.length`
  have hsub : ((List.range v.length).map fun k => p.indexOf k) ⊆ List.range p.length := by
    intro x hx
    rcases List.mem_map.mp hx with ⟨k, hk, rfl⟩
    exact List.mem_range.mpr (hidx k (List.mem_range.mp hk))
  have hnodup : ((List.range v.length).map fun k => p.indexOf k).Nodup := by
    refine List.Nodup.map_on ?_ (List.nodup_range v.length)
    intro x hx y hy hxy
    have hgx := hget x (List.mem_range.mp hx)
    have hgy := hget y (List.mem_range.mp hy)
    rw [← hgx, ← hgy, hxy]
  have hrperm : ((List.range v.length).map fun k => p.indexOf k).Perm (List.range p.length) := by
    refine (hnodup.subperm hsub).perm_of_length_le ?_
    rw [List.length_map, List.length_range, List.length_range, hlenp]
  -- the right-hand side is sorted by the key order of `p`
  have hsorted : ((List.range v.length).map fun k => p.indexOf k).Pairwise
      fun a b => keyLe p a b = true := by
    rw [List.pairwise_map]
    refine (List.pairwise_lt_range v.length).imp_of_mem ?_
    intro a b ha hb hab
    simp only [keyLe, decide_eq_true_eq]
    exact Or.inl (by
      rw [hget a (List.mem_range.mp ha), hget b (List.mem_range.mp hb)]
      exact hab)
  refine sorted_keyLe_unique p ?_ (argsort_sorted p) hsorted
  exact (argsort_perm p).trans hrperm.symm

/-- Entry `i` of the double argsort counts the indices whose key is
strictly smaller than the key of `i`. -/
theorem argsort_argsort_getD {α : Type} [LinearOrder α] [Inhabited α] (v : List α)
    (i : ℕ) (hi : i < v.length) :
    (argsort (argsort v)).getD i 0 =
      ((List.range v.length).filter fun j => decide (keyLt v j i)).length := by
  have hlen : ((List.range v.length).map fun k => (argsort v).indexOf k).length = v.length := by
    rw [List.length_map, List.length_range]
  rw [argsort_argsort_eq v, List.getD_eq_getElem _ 0 (by rw [hlen]; exact hi),
    List.getElem_map, List.getElem_range]
  have hmem : i ∈ argsort v := (argsort_perm v).symm.subset (List.mem_range.mpr hi)
  rw [indexOf_eq_length_filter_of_sorted v (argsort v) (argsort_pairwise_keyLt v) i hmem]
  exact ((argsort_perm v).filter fun j => decide (keyLt v j i)).length_eq

/-- Ranking step: `ranks = (-topsis_score).argsort().argsort() + 1`. -/
noncomputable def ranksOfScores (s : List ℝ) : List ℕ :=
  (argsort (argsort (s.map fun x => -x))).map fun r => r + 1

/-- The scores of all alternatives in original row order. -/
noncomputable def scoreList {n m : ℕ} (A : Fin (n + 1) → Fin m → ℝ) (w : Fin m → ℝ)
    (imp : Fin m → Impact) : List ℝ :=
  (List.finRange (n + 1)).map (topsis_score A w imp)

/-- The rank of alternative `i` (1 is best). -/
noncomputable def rankOf {n m : ℕ} (A : Fin (n + 1) → Fin m → ℝ) (w : Fin m → ℝ)
    (imp : Fin m → Impact) (i : Fin (n + 1)) : ℕ :=
  (ranksOfScores (scoreList A w imp)).getD i.val 0

theorem ranksOfScores_perm (s : List ℝ) :
    (ranksOfScores s).Perm ((List.range s.length).map fun k => k + 1) := by
  have h : (argsort (argsort (s.map fun x => -x))).Perm (List.range s.length) := by
    have h' := argsort_perm (argsort (s.map fun x => -x))
    rwa [argsort_length, List.length_map] at h'
  exact h.map fun r => r + 1

/-- Closed form of an entry of the rank array: one plus the number of
rows that either score strictly higher, or score equally and come earlier. -/
theorem ranksOfScores_getD (s : List ℝ) (i : ℕ) (hi : i < s.length) :
    (ranksOfScores s).getD i 0 =
      ((List.range s.length).filter fun j =>
        decide (s.getD i 0 < s.getD j 0 ∨ (s.getD j 0 = s.getD i 0 ∧ j < i))).length + 1 := by
  set v := s.map fun x => -x with hv
  have hvlen : v.length = s.length := List.length_map s _
  have hvd : ∀ j, v.getD j default = -(s.getD j 0) := by
    intro j
    have hd : (default : ℝ) = -(0 : ℝ) := by
      rw [show (default : ℝ) = 0 from rfl]
      norm_num
    rw [hv, hd, List.getD_map]
  have hq : (argsort (argsort v)).length = s.length := by
    rw [argsort_length, argsort_length, hvlen]
  have h1 : (ranksOfScores s).getD i 0 = (argsort (argsort v)).getD i 0 + 1 := by
    rw [ranksOfScores, ← hv,
      List.getD_eq_getElem _ 0 (by rw [List.length_map, hq]; exact hi), List.getElem_map,
      ← List.getD_eq_getElem _ 0 (by rw [hq]; exact hi)]
  rw [h1, argsort_argsort_getD v i (by rw [hvlen]; exact hi), hvlen]
  congr 2
  apply List.filter_congr
  intro j _
  apply decide_eq_decide.mpr
  unfold keyLt
  rw [hvd j, hvd i]
  constructor
  · rintro (h | ⟨h, h'⟩)
    · exact Or.inl (by linarith)
    · exact Or.inr ⟨by linarith, h'⟩
  · rintro (h | ⟨h, h'⟩)
    · exact Or.inl (by linarith)
    · exact Or.inr ⟨by linarith, h'⟩

theorem scoreList_length {n m : ℕ} (A : Fin (n + 1) → Fin m → ℝ) (w : Fin m → ℝ)
    (imp : Fin m → Impact) : (scoreList A w imp).length = n + 1 := by
  rw [scoreList, List.length_map, List.length_finRange]

theorem scoreList_getD {n m : ℕ} (A : Fin (n + 1) → Fin m → ℝ) (w : Fin m → ℝ)
    (imp : Fin m → Impact) (i : Fin (n + 1)) :
    (scoreList A w imp).getD i.val 0 = topsis_score A w imp i := by
  rw [scoreList, List.getD_eq_getElem _ 0
    (by rw [List.length_map, List.length_finRange]; exact i.isLt), List.getElem_map]
  congr 1
  apply Fin.ext
  simp [List.getElem_finRange]

/-- Fin-indexed closed form for the rank of an alternative. -/
theorem rankOf_eq {n m : ℕ} (A : Fin (n + 1) → Fin m → ℝ) (w : Fin m → ℝ)
    (imp : Fin m → Impact) (i : Fin (n + 1)) :
    rankOf A w imp i =
      ((List.finRange (n + 1)).filter fun j =>
        decide (topsis_score A w imp i < topsis_score A w imp j ∨
          (topsis_score A w imp j = topsis_score A w imp i ∧ j < i))).length + 1 := by
  have hlen : (scoreList A w imp).length = n + 1 := scoreList_length A w imp
  rw [rankOf, ranksOfScores_getD _ i.val (by rw [hlen]; exact i.isLt), hlen]
  congr 1
  rw [← List.map_coe_finRange (n + 1), List.filter_map, List.length_map]
  apply congrArg List.length
  apply List.filter_congr
  intro j _
  show decide _ = decide _
  apply decide_eq_decide.mpr
  rw [scoreList_getD A w imp i, scoreList_getD A w imp j]
  rw [show (j.val < i.val) = (j < i) from propext (Fin.lt_def).symm]

theorem length_filter_le_of_imp {α : Type} (l : List α) (p q : α → Bool)
    (h : ∀ a ∈ l, p a = true → q a = true) :
    (l.filter p).length ≤ (l.filter q).length := by
  induction l with
  | nil => simp
  | cons a t ih =>
    have ht : ∀ b ∈ t, p b = true → q b = true := fun b hb => h b (List.mem_cons_of_mem a hb)
    rw [List.filter_cons, List.filter_cons]
    by_cases hp : p a = true
    · rw [if_pos hp, if_pos (h a (List.mem_cons_self a t) hp)]
      simpa using ih ht
    · rw [if_neg hp]
      by_cases hq : q a = true
      · rw [if_pos hq]
        exact le_trans (ih ht) (Nat.le_succ _)
      · rw [if_neg hq]
        exact ih ht

theorem length_filter_lt_of_imp {α : Type} (l : List α) (p q : α → Bool)
    (h : ∀ a ∈ l, p a = true → q a = true) (x : α) (hx : x ∈ l)
    (hqx : q x = true) (hpx : p x = false) :
    (l.filter p).length < (l.filter q).length := by
  induction l with
  | nil => exact absurd hx (List.not_mem_nil x)
  | cons a t ih =>
    have ht : ∀ b ∈ t, p b = true → q b = true := fun b hb => h b (List.mem_cons_of_mem a hb)
    rw [List.filter_cons, List.filter_cons]
    rcases List.mem_cons.mp hx with rfl | hxt
    · rw [if_neg (by simp [hpx]), if_pos hqx]
      exact Nat.lt_succ_of_le (length_filter_le_of_imp t p q ht)
    · by_cases hp : p a = true
      · rw [if_pos hp, if_pos (h a (List.mem_cons_self a t) hp)]
        exact Nat.succ_lt_succ (ih ht hxt)
      · rw [if_neg hp]
        by_cases hq : q a = true
        · rw [if_pos hq]
          exact Nat.lt_succ_of_lt (ih ht hxt)
        · rw [if_neg hq]
          exact ih ht hxt

/-- C2: for N alternatives, the ranks returned by the engine are a
permutation of {1, …, N}. -/
theorem ranks_permutation {n m : ℕ} (A : Fin (n + 1) → Fin m → ℝ) (w : Fin m → ℝ)
    (imp : Fin m → Impact) :
    (ranksOfScores (scoreList A w imp)).Perm ((List.range (n + 1)).map fun k => k + 1) := by
  have h := ranksOfScores_perm (scoreList A w imp)
  rwa [scoreList_length] at h

/-- C3: ranks are assigned in descending order of score; alternatives with
exactly equal scores receive distinct ranks with the earlier input row
getting the smaller rank; identical rows have identical scores. -/
theorem rank_descending_stable {n m : ℕ} (A : Fin (n + 1) → Fin m → ℝ) (w : Fin m → ℝ)
    (imp : Fin m → Impact) (i j : Fin (n + 1)) :
    ((∀ k, A i k = A j k) → topsis_score A w imp i = topsis_score A w imp j)
    ∧ (topsis_score A w imp j < topsis_score A w imp i → rankOf A w imp i < rankOf A w imp j)
    ∧ (topsis_score A w imp i = topsis_score A w imp j → i < j →
        rankOf A w imp i < rankOf A w imp j) := by
  refine ⟨?_, ?_, ?_⟩
  · intro hrow
    have hwk : ∀ k, weighted A w i k = weighted A w j k := fun k => by
      rw [weighted, weighted, normalized, normalized, hrow k]
    have hbest : (∑ k, (weighted A w i k - idealBest A w imp k) ^ 2) =
        ∑ k, (weighted A w j k - idealBest A w imp k) ^ 2 :=
      Finset.sum_congr rfl fun k _ => by rw [hwk k]
    have hworst : (∑ k, (weighted A w i k - idealWorst A w imp k) ^ 2) =
        ∑ k, (weighted A w j k - idealWorst A w imp k) ^ 2 :=
      Finset.sum_congr rfl fun k _ => by rw [hwk k]
    unfold topsis_score distance_best distance_worst
    rw [hbest, hworst]
  · intro hs
    rw [rankOf_eq, rankOf_eq]
    refine Nat.add_lt_add_right ?_ 1
    refine length_filter_lt_of_imp _ _ _ ?_ i (List.mem_finRange i)
      (decide_eq_true (Or.inl hs)) (decide_eq_false ?_)
    · intro k _
      simp only [decide_eq_true_eq]
      rintro (h | ⟨h, h'⟩)
      · exact Or.inl (lt_trans hs h)
      · exact Or.inl (h ▸ hs)
    · rintro (h | ⟨-, h⟩)
      · exact lt_irrefl _ h
      · exact lt_irrefl _ h
  · intro hs hij
    rw [rankOf_eq, rankOf_eq]
    refine Nat.add_lt_add_right ?_ 1
    refine length_filter_lt_of_imp _ _ _ ?_ i (List.mem_finRange i)
      (decide_eq_true (Or.inr ⟨hs, hij⟩)) (decide_eq_false ?_)
    · intro k _
      simp only [decide_eq_true_eq]
      rintro (h | ⟨h, h'⟩)
      · exact Or.inl (hs ▸ h)
      · exact Or.inr ⟨h.trans hs, lt_trans h' hij⟩
    · rintro (h | ⟨-, h⟩)
      · exact lt_irrefl _ h
      · exact lt_irrefl _ h

def exA3 : Fin (1 + 1) → Fin 1 → ℝ := fun _ _ => 1

def exW3 : Fin 1 → ℝ := fun _ => 1

def exI3 : Fin 1 → Impact := fun _ => Impact.plus

/-- Witness for C3: two identical rows get equal scores and the earlier
row receives the smaller rank. -/
theorem rank_descending_stable_witness :
    topsis_score exA3 exW3 exI3 0 = topsis_score exA3 exW3 exI3 1 ∧
      rankOf exA3 exW3 exI3 0 < rankOf exA3 exW3 exI3 1 := by
  have h := rank_descending_stable exA3 exW3 exI3 0 1
  have hs := h.1 fun _ => rfl
  exact ⟨hs, h.2.2 hs (by decide)⟩

/-- Input dataframe of `perform_topsis`: the first column holds the
alternative names, the remaining `m` columns the criteria. -/
structure DataFrame (n m : ℕ) where
  names : Fin (n + 1) → String
  data : Fin (n + 1) → Fin m → ℝ

/-- Result dataframe: the original columns plus the two appended columns
`'Topsis Score'` and `'Rank'`. -/
structure ResultFrame (n m : ℕ) where
  names : Fin (n + 1) → String
  data : Fin (n + 1) → Fin m → ℝ
  topsisScore : Fin (n + 1) → ℝ
  rank : Fin (n + 1) → ℕ

/-- Round-half-to-even on the integers, the rounding mode of `np.round`. -/
noncomputable def roundHalfEven (x : ℝ) : ℤ :=
  if Int.fract x = 1 / 2 then (if 2 ∣ ⌊x⌋ then ⌊x⌋ else ⌈x⌉) else round x

/-- Model of `np.round(x, 6)`: the score column is rounded to 6 decimal places. -/
noncomputable def npRound6 (x : ℝ) : ℝ :=
  (roundHalfEven (x * 10 ^ 6) : ℝ) / 10 ^ 6

/-- The engine `perform_topsis`: works on a copy of the input dataframe and
appends the rounded score column and the integer rank column. -/
noncomputable def perform_topsis {n m : ℕ} (df : DataFrame n m) (w : Fin m → ℝ)
    (imp : Fin m → Impact) : ResultFrame n m where
  names := df.names
  data := df.data
  topsisScore := fun i => npRound6 (topsis_score df.data w imp i)
  rank := fun i => rankOf df.data w imp i

/-- C9: the result contains every original column with unchanged values in
the same row order, and exactly two appended columns: the closeness score
rounded to 6 decimal places and the integer rank; the input dataframe is
not mutated, since the result is built as a copy. -/
theorem result_frame_shape {n m : ℕ} (df : DataFrame n m) (w : Fin m → ℝ)
    (imp : Fin m → Impact) :
    (perform_topsis df w imp).names = df.names ∧
    (perform_topsis df w imp).data = df.data ∧
    (perform_topsis df w imp).topsisScore =
      (fun i => npRound6 (topsis_score df.data w imp i)) ∧
    (perform_topsis df w imp).rank = fun i => rankOf df.data w imp i :=
  ⟨rfl, rfl, rfl, rfl⟩

/-- C10: the names column never influences scores or ranks; two inputs
differing only in the first column produce identical score and rank
columns, because only the columns after the first enter the matrix. -/
theorem names_noninterference {n m : ℕ} (df₁ df₂ : DataFrame n m) (w : Fin m → ℝ)
    (imp : Fin m → Impact) (h : df₁.data = df₂.data) :
    (perform_topsis df₁ w imp).topsisScore = (perform_topsis df₂ w imp).topsisScore ∧
    (perform_topsis df₁ w imp).rank = (perform_topsis df₂ w imp).rank := by
  constructor <;> simp only [perform_topsis, h]

def exDfA : DataFrame 0 1 := { names := fun _ => "M1", data := fun _ _ => 2 }

def exDfB : DataFrame 0 1 := { names := fun _ => "M2", data := fun _ _ => 2 }

def exW10 : Fin 1 → ℝ := fun _ => 1

def exI10 : Fin 1 → Impact := fun _ => Impact.plus

/-- Witness for C10: two dataframes with different names but the same
criteria data get identical score and rank columns. -/
theorem names_noninterference_witness :
    exDfA.names 0 ≠ exDfB.names 0 ∧
    (perform_topsis exDfA exW10 exI10).topsisScore =
      (perform_topsis exDfB exW10 exI10).topsisScore ∧
    (perform_topsis exDfA exW10 exI10).rank = (perform_topsis exDfB exW10 exI10).rank :=
  ⟨by decide, names_noninterference exDfA exDfB exW10 exI10 rfl⟩

/-- Error kinds surfaced by the validation around the engine. -/
inductive TopsisError
  | shapeMismatch
  | invalidValue
deriving DecidableEq

/-- Shape validation performed before the engine runs (`topsis_api` checks
`len(weights) != len(impacts)` and `len(weights) != num_criteria` and
returns an error response without computing anything). -/
noncomputable def topsisChecked {n m : ℕ} (df : DataFrame n m) (weights : List ℝ)
    (impacts : List Impact) : Except TopsisError (ResultFrame n m) :=
  if weights.length ≠ impacts.length then Except.error TopsisError.shapeMismatch
  else if weights.length ≠ m then Except.error TopsisError.shapeMismatch
  else Except.ok (perform_topsis df (fun j => weights.getD j.val 0)
    fun j => impacts.getD j.val Impact.plus)

/-- C6: a weight (or impact) vector whose length differs from the
criterion-column count makes the computation fail with a shape-mismatch
error, and no partial result (no scores, no ranks) is returned.  An impact
vector of the wrong length is caught by the `len(weights) != len(impacts)`
check when the weights have the right length, and by one of the two checks
otherwise. -/
theorem shape_mismatch_error {n m : ℕ} (df : DataFrame n m) (weights : List ℝ)
    (impacts : List Impact) (h : weights.length ≠ m ∨ impacts.length ≠ m) :
    topsisChecked df weights impacts = Except.error TopsisError.shapeMismatch := by
  unfold topsisChecked
  by_cases h1 : weights.length ≠ impacts.length
  · rw [if_pos h1]
  · have h2 : weights.length ≠ m := by
      rcases h with h | h
      · exact h
      · rw [not_not] at h1
        rw [h1]
        exact h
    rw [if_neg h1, if_pos h2]

def exDf6 : DataFrame 0 4 := { names := fun _ => "M1", data := fun _ _ => 1 }

def exWeights6 : List ℝ := [1, 2, 3]

def exImpacts6 : List Impact := [Impact.plus, Impact.minus, Impact.plus]

/-- Witness for C6: weights of length 3 against a 4-criteria matrix yield
the shape-mismatch error. -/
theorem shape_mismatch_error_witness :
    topsisChecked exDf6 exWeights6 exImpacts6 = Except.error TopsisError.shapeMismatch :=
  shape_mismatch_error exDf6 exWeights6 exImpacts6 (Or.inl (by simp [exWeights6]))

/-- The matrix with criterion column `j` removed. -/
noncomputable def dropColMatrix {n m : ℕ} (A : Fin (n + 1) → Fin (m + 1) → ℝ)
    (j : Fin (m + 1)) : Fin (n + 1) → Fin m → ℝ :=
  fun i k => A i (j.succAbove k)

/-- A weight or impact vector with entry `j` removed. -/
def dropColVec {α : Type} {m : ℕ} (w : Fin (m + 1) → α) (j : Fin (m + 1)) : Fin m → α :=
  fun k => w (j.succAbove k)

/-- C8: on an input with an all-zero criterion column, removing that column
together with its weight and impact leaves every alternative's score and
rank unchanged. -/
theorem zero_column_removal {n m : ℕ} (A : Fin (n + 1) → Fin (m + 1) → ℝ)
    (w : Fin (m + 1) → ℝ) (imp : Fin (m + 1) → Impact) (j : Fin (m + 1))
    (h : ∀ i, A i j = 0) :
    (∀ i, topsis_score (dropColMatrix A j) (dropColVec w j) (dropColVec imp j) i =
        topsis_score A w imp i)
    ∧ ∀ i, rankOf (dropColMatrix A j) (dropColVec w j) (dropColVec imp j) i =
        rankOf A w imp i := by
  have hzero := zero_column_guard A w imp j h
  have hscore : ∀ i, topsis_score (dropColMatrix A j) (dropColVec w j) (dropColVec imp j) i =
      topsis_score A w imp i := by
    intro i
    have hbest : distance_best A w imp i =
        distance_best (dropColMatrix A j) (dropColVec w j) (dropColVec imp j) i := by
      unfold distance_best
      rw [Fin.sum_univ_succAbove (fun l => (weighted A w i l - idealBest A w imp l) ^ 2) j,
        (hzero.2.2 i).1, zero_add]
      rfl
    have hworst : distance_worst A w imp i =
        distance_worst (dropColMatrix A j) (dropColVec w j) (dropColVec imp j) i := by
      unfold distance_worst
      rw [Fin.sum_univ_succAbove (fun l => (weighted A w i l - idealWorst A w imp l) ^ 2) j,
        (hzero.2.2 i).2, zero_add]
      rfl
    unfold topsis_score
    rw [hbest, hworst]
  have hfun : topsis_score (dropColMatrix A j) (dropColVec w j) (dropColVec imp j) =
      topsis_score A w imp := funext hscore
  have hsl : scoreList (dropColMatrix A j) (dropColVec w j) (dropColVec imp j) =
      scoreList A w imp := by
    rw [scoreList, scoreList, hfun]
  exact ⟨hscore, fun i => by rw [rankOf, rankOf, hsl]⟩

def exA8 : Fin (1 + 1) → Fin (1 + 1) → ℝ := ![![0, 3], ![0, 1]]

def exW8 : Fin (1 + 1) → ℝ := ![1, 1]

def exI8 : Fin (1 + 1) → Impact := ![Impact.plus, Impact.plus]

/-- Witness for C8: dropping the all-zero first column of a concrete 2×2
input leaves the first alternative's score and rank unchanged. -/
theorem zero_column_removal_witness :
    topsis_score (dropColMatrix exA8 0) (dropColVec exW8 0) (dropColVec exI8 0) 0 =
      topsis_score exA8 exW8 exI8 0 ∧
    rankOf (dropColMatrix exA8 0) (dropColVec exW8 0) (dropColVec exI8 0) 0 =
      rankOf exA8 exW8 exI8 0 := by
  have h := zero_column_removal exA8 exW8 exI8 0 (by intro i; fin_cases i <;> simp [exA8])
  exact ⟨h.1 0, h.2 0⟩

/-- Matrix with the single entry `(i, j)` replaced by `v`. -/
def updateEntry {n m : ℕ} (A : Fin (n + 1) → Fin m → ℝ) (i : Fin (n + 1)) (j : Fin m)
    (v : ℝ) : Fin (n + 1) → Fin m → ℝ :=
  fun k l => if k = i ∧ l = j then v else A k l

theorem updateEntry_same {n m : ℕ} (A : Fin (n + 1) → Fin m → ℝ) (i : Fin (n + 1))
    (j : Fin m) (v : ℝ) : updateEntry A i j v i j = v :=
  if_pos ⟨rfl, rfl⟩

theorem updateEntry_ne_row {n m : ℕ} (A : Fin (n + 1) → Fin m → ℝ) (i : Fin (n + 1))
    (j : Fin m) (v : ℝ) (k : Fin (n + 1)) (l : Fin m) (hk : k ≠ i) :
    updateEntry A i j v k l = A k l := by
  rw [updateEntry, if_neg]
  rintro ⟨rfl, -⟩
  exact hk rfl

theorem updateEntry_ne_col {n m : ℕ} (A : Fin (n + 1) → Fin m → ℝ) (i : Fin (n + 1))
    (j : Fin m) (v : ℝ) (k : Fin (n + 1)) (l : Fin m) (hl : l ≠ j) :
    updateEntry A i j v k l = A k l := by
  rw [updateEntry, if_neg]
  rintro ⟨-, rfl⟩
  exact hl rfl

theorem le_of_sq_le_sq {a b : ℝ} (ha : 0 ≤ a) (hb : 0 ≤ b) (h : a ^ 2 ≤ b ^ 2) : a ≤ b := by
  rw [← Real.sqrt_sq ha, ← Real.sqrt_sq hb]
  exact Real.sqrt_le_sqrt h

/-- A zero column norm forces every entry of the column to be zero. -/
theorem norms_zero_forall {n m : ℕ} (A : Fin (n + 1) → Fin m → ℝ) (j : Fin m)
    (h : norms A j = 0) : ∀ k, A k j = 0 := by
  intro k
  have h0 : 0 ≤ ∑ i, A i j ^ 2 := Finset.sum_nonneg fun i _ => sq_nonneg _
  have hle : (∑ i, A i j ^ 2) ≤ 0 := Real.sqrt_eq_zero'.mp h
  have hsum : (∑ i, A i j ^ 2) = 0 := le_antisymm hle h0
  have hk := (Finset.sum_eq_zero_iff_of_nonneg fun i _ => sq_nonneg (A i j)).mp hsum k
    (Finset.mem_univ k)
  exact (pow_eq_zero_iff two_ne_zero).mp hk

/-- Increasing the nonnegative entry `(i, j)` raises the column norm. -/
theorem norms_update_le {n m : ℕ} (A : Fin (n + 1) → Fin m → ℝ) (i : Fin (n + 1))
    (j : Fin m) (v : ℝ) (hcol : ∀ k, 0 ≤ A k j) (hlt : A i j < v) :
    norms A j ≤ norms (updateEntry A i j v) j := by
  unfold norms
  apply Real.sqrt_le_sqrt
  apply Finset.sum_le_sum
  intro k _
  by_cases hk : k = i
  · subst hk
    rw [updateEntry_same]
    exact pow_le_pow_left₀ (hcol k) hlt.le 2
  · rw [updateEntry_ne_row A i j v k j hk]

/-- Monotonicity of the weighted column under a single-entry increase on a
nonnegative column with nonnegative weight: the changed row's weighted
value does not decrease and every other row's does not increase. -/
theorem weighted_update_mono {n m : ℕ} (A : Fin (n + 1) → Fin m → ℝ) (w : Fin m → ℝ)
    (i : Fin (n + 1)) (j : Fin m) (v : ℝ) (hw : 0 ≤ w j) (hcol : ∀ k, 0 ≤ A k j)
    (hlt : A i j < v) :
    (weighted A w i j ≤ weighted (updateEntry A i j v) w i j)
    ∧ ∀ k, k ≠ i → weighted (updateEntry A i j v) w k j ≤ weighted A w k j := by
  have hnle : norms A j ≤ norms (updateEntry A i j v) j := norms_update_le A i j v hcol hlt
  by_cases hz : norms A j = 0
  · have hall : ∀ k, A k j = 0 := norms_zero_forall A j hz
    have hv : 0 < v := by rw [hall i] at hlt; exact hlt
    have hnormsA' : norms (updateEntry A i j v) j = v := by
      unfold norms
      rw [show (∑ k, updateEntry A i j v k j ^ 2) = updateEntry A i j v i j ^ 2 from
        Finset.sum_eq_single i
          (fun b _ hb => by rw [updateEntry_ne_row A i j v b j hb, hall b]; ring)
          (fun hi => absurd (Finset.mem_univ i) hi)]
      rw [updateEntry_same]
      exact Real.sqrt_sq hv.le
    have hsafeA : safeNorms A j = 1 := by rw [safeNorms, if_pos hz]
    have hsafeA' : safeNorms (updateEntry A i j v) j = v := by
      rw [safeNorms, hnormsA', if_neg hv.ne']
    constructor
    · rw [weighted, weighted, normalized, normalized, hsafeA, hsafeA', hall i,
        updateEntry_same, zero_div, zero_mul, div_self hv.ne', one_mul]
      exact hw
    · intro k hk
      rw [weighted, weighted, normalized, normalized, hsafeA, hsafeA',
        updateEntry_ne_row A i j v k j hk, hall k, zero_div, zero_div]
  · have hnpos : 0 < norms A j := lt_of_le_of_ne (Real.sqrt_nonneg _) (Ne.symm hz)
    have hn'pos : 0 < norms (updateEntry A i j v) j := lt_of_lt_of_le hnpos hnle
    have hsafeA : safeNorms A j = norms A j := by rw [safeNorms, if_neg hz]
    have hsafeA' : safeNorms (updateEntry A i j v) j = norms (updateEntry A i j v) j := by
      rw [safeNorms, if_neg hn'pos.ne']
    have hsqA : norms A j ^ 2 = ∑ k, A k j ^ 2 :=
      Real.sq_sqrt (Finset.sum_nonneg fun k _ => sq_nonneg _)
    have hsqA' : norms (updateEntry A i j v) j ^ 2 = ∑ k, updateEntry A i j v k j ^ 2 :=
      Real.sq_sqrt (Finset.sum_nonneg fun k _ => sq_nonneg _)
    have hTA : (∑ k, A k j ^ 2) = A i j ^ 2 + ∑ k ∈ Finset.univ.erase i, A k j ^ 2 :=
      (Finset.add_sum_erase Finset.univ (fun k => A k j ^ 2) (Finset.mem_univ i)).symm
    have hTA' : (∑ k, updateEntry A i j v k j ^ 2) =
        v ^ 2 + ∑ k ∈ Finset.univ.erase i, A k j ^ 2 := by
      rw [← Finset.add_sum_erase Finset.univ (fun k => updateEntry A i j v k j ^ 2)
        (Finset.mem_univ i), updateEntry_same]
      congr 1
      refine Finset.sum_congr rfl fun k hk => ?_
      rw [updateEntry_ne_row A i j v k j (Finset.ne_of_mem_erase hk)]
    have hT : 0 ≤ ∑ k ∈ Finset.univ.erase i, A k j ^ 2 :=
      Finset.sum_nonneg fun k _ => sq_nonneg _
    have hx2 : A i j ^ 2 ≤ v ^ 2 := pow_le_pow_left₀ (hcol i) hlt.le 2
    constructor
    · rw [weighted, weighted, normalized, normalized, hsafeA, hsafeA', updateEntry_same]
      refine mul_le_mul_of_nonneg_right ?_ hw
      rw [div_le_div_iff₀ hnpos hn'pos]
      refine le_of_sq_le_sq (mul_nonneg (hcol i) hn'pos.le)
        (mul_nonneg (le_of_lt (lt_of_le_of_lt (hcol i) hlt)) hnpos.le) ?_
      rw [mul_pow, mul_pow, hsqA, hsqA', hTA, hTA']
      have hmul : A i j ^ 2 * (∑ k ∈ Finset.univ.erase i, A k j ^ 2) ≤
          v ^ 2 * ∑ k ∈ Finset.univ.erase i, A k j ^ 2 :=
        mul_le_mul_of_nonneg_right hx2 hT
      nlinarith [hmul, hx2, hT]
    · intro k hk
      rw [weighted, weighted, normalized, normalized, hsafeA, hsafeA',
        updateEntry_ne_row A i j v k j hk]
      refine mul_le_mul_of_nonneg_right ?_ hw
      rw [div_le_div_iff₀ hn'pos hnpos]
      exact mul_le_mul_of_nonneg_left hnle (hcol k)

/-- Under the hypotheses of the amended monotonicity claim, the changed
row's squared gap to the ideal best value of column `j` does not increase. -/
theorem bestTerm_update_le {n m : ℕ} (A : Fin (n + 1) → Fin m → ℝ) (w : Fin m → ℝ)
    (imp : Fin m → Impact) (i : Fin (n + 1)) (j : Fin m) (v : ℝ)
    (himp : imp j = Impact.plus) (hw : 0 ≤ w j) (hcol : ∀ k, 0 ≤ A k j)
    (hlt : A i j < v) :
    (weighted (updateEntry A i j v) w i j - idealBest (updateEntry A i j v) w imp j) ^ 2 ≤
      (weighted A w i j - idealBest A w imp j) ^ 2 := by
  obtain ⟨hP1, hP2⟩ := weighted_update_mono A w i j v hw hcol hlt
  have hB : idealBest A w imp j =
      Finset.univ.sup' Finset.univ_nonempty fun k => weighted A w k j := by
    simp only [idealBest, himp]
  have hB' : idealBest (updateEntry A i j v) w imp j =
      Finset.univ.sup' Finset.univ_nonempty fun k => weighted (updateEntry A i j v) w k j := by
    simp only [idealBest, himp]
  rw [hB, hB']
  have h1 : weighted (updateEntry A i j v) w i j ≤
      Finset.univ.sup' Finset.univ_nonempty fun k => weighted (updateEntry A i j v) w k j :=
    Finset.le_sup' (fun k => weighted (updateEntry A i j v) w k j) (Finset.mem_univ i)
  have h0 : weighted A w i j ≤
      Finset.univ.sup' Finset.univ_nonempty fun k => weighted A w k j :=
    Finset.le_sup' (fun k => weighted A w k j) (Finset.mem_univ i)
  obtain ⟨k, -, hk⟩ := Finset.exists_mem_eq_sup' Finset.univ_nonempty
    fun t => weighted (updateEntry A i j v) w t j
  have h2 : (Finset.univ.sup' Finset.univ_nonempty
        fun t => weighted (updateEntry A i j v) w t j) -
        weighted (updateEntry A i j v) w i j ≤
      (Finset.univ.sup' Finset.univ_nonempty fun t => weighted A w t j) - weighted A w i j := by
    rw [hk]
    by_cases hki : k = i
    · subst hki
      have := sub_nonneg.mpr h0
      linarith
    · have hP2k := hP2 k hki
      have hkA : weighted A w k j ≤
          Finset.univ.sup' Finset.univ_nonempty fun t => weighted A w t j :=
        Finset.le_sup' (fun t => weighted A w t j) (Finset.mem_univ k)
      linarith
  have hsq : ∀ a b : ℝ, (a - b) ^ 2 = (b - a) ^ 2 := fun a b => by ring
  rw [hsq (weighted (updateEntry A i j v) w i j), hsq (weighted A w i j)]
  exact pow_le_pow_left₀ (sub_nonneg.mpr h1) h2 2

/-- Under the hypotheses of the amended monotonicity claim, the changed
row's squared gap to the ideal worst value of column `j` does not decrease. -/
theorem worstTerm_update_ge {n m : ℕ} (A : Fin (n + 1) → Fin m → ℝ) (w : Fin m → ℝ)
    (imp : Fin m → Impact) (i : Fin (n + 1)) (j : Fin m) (v : ℝ)
    (himp : imp j = Impact.plus) (hw : 0 ≤ w j) (hcol : ∀ k, 0 ≤ A k j)
    (hlt : A i j < v) :
    (weighted A w i j - idealWorst A w imp j) ^ 2 ≤
      (weighted (updateEntry A i j v) w i j - idealWorst (updateEntry A i j v) w imp j) ^ 2 := by
  obtain ⟨hP1, hP2⟩ := weighted_update_mono A w i j v hw hcol hlt
  have hW : idealWorst A w imp j =
      Finset.univ.inf' Finset.univ_nonempty fun k => weighted A w k j := by
    simp only [idealWorst, himp]
  have hW' : idealWorst (updateEntry A i j v) w imp j =
      Finset.univ.inf' Finset.univ_nonempty fun k => weighted (updateEntry A i j v) w k j := by
    simp only [idealWorst, himp]
  rw [hW, hW']
  have h1 : (Finset.univ.inf' Finset.univ_nonempty
        fun k => weighted (updateEntry A i j v) w k j) ≤
      weighted (updateEntry A i j v) w i j :=
    Finset.inf'_le (fun k => weighted (updateEntry A i j v) w k j) (Finset.mem_univ i)
  have h0 : (Finset.univ.inf' Finset.univ_nonempty fun k => weighted A w k j) ≤
      weighted A w i j :=
    Finset.inf'_le (fun k => weighted A w k j) (Finset.mem_univ i)
  obtain ⟨k, -, hk⟩ := Finset.exists_mem_eq_inf' Finset.univ_nonempty
    fun t => weighted A w t j
  have h2 : weighted A w i j -
        (Finset.univ.inf' Finset.univ_nonempty fun t => weighted A w t j) ≤
      weighted (updateEntry A i j v) w i j -
        (Finset.univ.inf' Finset.univ_nonempty fun t => weighted (updateEntry A i j v) w t j) := by
    rw [hk]
    by_cases hki : k = i
    · subst hki
      have := sub_nonneg.mpr h1
      linarith
    · have hP2k := hP2 k hki
      have hkA' : (Finset.univ.inf' Finset.univ_nonempty
            fun t => weighted (updateEntry A i j v) w t j) ≤
          weighted (updateEntry A i j v) w k j :=
        Finset.inf'_le (fun t => weighted (updateEntry A i j v) w t j) (Finset.mem_univ k)
      linarith
  exact pow_le_pow_left₀ (sub_nonneg.mpr h0) h2 2

theorem norms_update_of_ne_col {n m : ℕ} (A : Fin (n + 1) → Fin m → ℝ) (i : Fin (n + 1))
    (j : Fin m) (v : ℝ) (l : Fin m) (hl : l ≠ j) :
    norms (updateEntry A i j v) l = norms A l := by
  unfold norms
  congr 1
  refine Finset.sum_congr rfl fun k _ => ?_
  rw [updateEntry_ne_col A i j v k l hl]

theorem weighted_update_of_ne_col {n m : ℕ} (A : Fin (n + 1) → Fin m → ℝ) (w : Fin m → ℝ)
    (i : Fin (n + 1)) (j : Fin m) (v : ℝ) (k : Fin (n + 1)) (l : Fin m) (hl : l ≠ j) :
    weighted (updateEntry A i j v) w k l = weighted A w k l := by
  unfold weighted normalized safeNorms
  rw [norms_update_of_ne_col A i j v l hl, updateEntry_ne_col A i j v k l hl]

theorem idealBest_update_of_ne_col {n m : ℕ} (A : Fin (n + 1) → Fin m → ℝ) (w : Fin m → ℝ)
    (imp : Fin m → Impact) (i : Fin (n + 1)) (j : Fin m) (v : ℝ) (l : Fin m) (hl : l ≠ j) :
    idealBest (updateEntry A i j v) w imp l = idealBest A w imp l := by
  have hfun : (fun k => weighted (updateEntry A i j v) w k l) = fun k => weighted A w k l :=
    funext fun k => weighted_update_of_ne_col A w i j v k l hl
  rcases himp : imp l with _ | _ <;> simp only [idealBest, himp, hfun]

theorem idealWorst_update_of_ne_col {n m : ℕ} (A : Fin (n + 1) → Fin m → ℝ) (w : Fin m → ℝ)
    (imp : Fin m → Impact) (i : Fin (n + 1)) (j : Fin m) (v : ℝ) (l : Fin m) (hl : l ≠ j) :
    idealWorst (updateEntry A i j v) w imp l = idealWorst A w imp l := by
  have hfun : (fun k => weighted (updateEntry A i j v) w k l) = fun k => weighted A w k l :=
    funext fun k => weighted_update_of_ne_col A w i j v k l hl
  rcases himp : imp l with _ | _ <;> simp only [idealWorst, himp, hfun]

/-- Monotonicity of the guarded closeness-score formula in the pair of
distances: smaller distance to best and larger distance to worst never
lower the score. -/
theorem score_formula_mono {a b a' b' : ℝ} (ha' : 0 ≤ a') (hb : 0 ≤ b) (hb' : 0 ≤ b')
    (haa : a' ≤ a) (hbb : b ≤ b') :
    b / (if a + b = 0 then 1 else a + b) ≤ b' / (if a' + b' = 0 then 1 else a' + b') := by
  have ha : 0 ≤ a := ha'.trans haa
  by_cases h : a + b = 0
  · have hb0 : b = 0 := by linarith
    rw [if_pos h, hb0, zero_div]
    by_cases h' : a' + b' = 0
    · rw [if_pos h']
      exact div_nonneg hb' zero_le_one
    · have hpos' : 0 < a' + b' := lt_of_le_of_ne (by linarith) (Ne.symm h')
      rw [if_neg h']
      exact div_nonneg hb' hpos'.le
  · have hpos : 0 < a + b := lt_of_le_of_ne (by linarith) (Ne.symm h)
    rw [if_neg h]
    by_cases h' : a' + b' = 0
    · have hb'0 : b' = 0 := by linarith
      have hb0 : b = 0 := le_antisymm (hb'0 ▸ hbb) hb
      rw [if_pos h', hb0, hb'0, zero_div, zero_div]
    · have hpos' : 0 < a' + b' := lt_of_le_of_ne (by linarith) (Ne.symm h')
      rw [if_neg h', div_le_div_iff₀ hpos hpos']
      have hcross : b * a' ≤ b' * a := mul_le_mul hbb haa ha' hb'
      nlinarith [hcross]

/-- C7 (amended): for a benefit criterion whose column entries are
nonnegative and whose weight is nonnegative, replacing one alternative's
entry by a strictly larger value never decreases that alternative's
closeness score. -/
theorem benefit_monotone {n m : ℕ} (A : Fin (n + 1) → Fin m → ℝ) (w : Fin m → ℝ)
    (imp : Fin m → Impact) (i : Fin (n + 1)) (j : Fin m) (v : ℝ)
    (himp : imp j = Impact.plus) (hw : 0 ≤ w j) (hcol : ∀ k, 0 ≤ A k j)
    (hlt : A i j < v) :
    topsis_score A w imp i ≤ topsis_score (updateEntry A i j v) w imp i := by
  have hdb : distance_best (updateEntry A i j v) w imp i ≤ distance_best A w imp i := by
    unfold distance_best
    apply Real.sqrt_le_sqrt
    apply Finset.sum_le_sum
    intro l _
    by_cases hl : l = j
    · subst hl
      exact bestTerm_update_le A w imp i l v himp hw hcol hlt
    · rw [weighted_update_of_ne_col A w i j v i l hl, idealBest_update_of_ne_col A w imp i j v l hl]
  have hdw : distance_worst A w imp i ≤ distance_worst (updateEntry A i j v) w imp i := by
    unfold distance_worst
    apply Real.sqrt_le_sqrt
    apply Finset.sum_le_sum
    intro l _
    by_cases hl : l = j
    · subst hl
      exact worstTerm_update_ge A w imp i l v himp hw hcol hlt
    · rw [weighted_update_of_ne_col A w i j v i l hl,
        idealWorst_update_of_ne_col A w imp i j v l hl]
  unfold topsis_score
  exact score_formula_mono (Real.sqrt_nonneg _) (Real.sqrt_nonneg _) (Real.sqrt_nonneg _)
    hdb hdw

def exA7 : Fin (1 + 1) → Fin 1 → ℝ := ![![1], ![2]]

def exW7 : Fin 1 → ℝ := fun _ => 1

def exI7 : Fin 1 → Impact := fun _ => Impact.plus

/-- Witness for the amended C7: raising the first alternative's benefit
entry from 1 to 3 on a nonnegative column does not decrease its score. -/
theorem benefit_monotone_witness :
    topsis_score exA7 exW7 exI7 0 ≤ topsis_score (updateEntry exA7 0 0 3) exW7 exI7 0 :=
  benefit_monotone exA7 exW7 exI7 0 0 3 rfl (by norm_num [exW7])
    (by intro k; fin_cases k <;> norm_num [exA7]) (by norm_num [exA7])

theorem sum_univ_two' (f : Fin (1 + 1) → ℝ) : (∑ i, f i) = f 0 + f 1 :=
  Fin.sum_univ_two f

theorem sup'_univ_two (f : Fin (1 + 1) → ℝ) :
    Finset.univ.sup' Finset.univ_nonempty f = max (f 0) (f 1) := by
  apply le_antisymm
  · refine Finset.sup'_le _ _ fun b _ => ?_
    fin_cases b
    · exact le_max_left _ _
    · exact le_max_right _ _
  · exact max_le (Finset.le_sup' f (Finset.mem_univ 0)) (Finset.le_sup' f (Finset.mem_univ 1))

theorem inf'_univ_two (f : Fin (1 + 1) → ℝ) :
    Finset.univ.inf' Finset.univ_nonempty f = min (f 0) (f 1) := by
  apply le_antisymm
  · exact le_min (Finset.inf'_le f (Finset.mem_univ 0)) (Finset.inf'_le f (Finset.mem_univ 1))
  · refine Finset.le_inf' _ _ fun b _ => ?_
    fin_cases b
    · exact min_le_left _ _
    · exact min_le_right _ _

def cexA : Fin (1 + 1) → Fin (1 + 1) → ℝ := ![![-2, 2], ![1, 1]]

def cexW : Fin (1 + 1) → ℝ := fun _ => 1

def cexI : Fin (1 + 1) → Impact := fun _ => Impact.plus

/-- Counterexample to C7 as stated: with matrix [[-2, 2], [1, 1]], unit
weights and two benefit criteria, raising the first alternative's entry on
criterion 0 from -2 to -1 strictly DEcreases its closeness score (from 1/4
to 1/(1+sqrt 10)): vector normalization is not monotone on negative
entries. -/
theorem benefit_monotone_counterexample :
    cexI 0 = Impact.plus ∧ cexA 0 0 < (-1 : ℝ) ∧
      topsis_score (updateEntry cexA 0 0 (-1)) cexW cexI 0 <
        topsis_score cexA cexW cexI 0 := by
  have hspos : (0 : ℝ) < Real.sqrt 5 := Real.sqrt_pos.mpr (by norm_num)
  have htpos : (0 : ℝ) < Real.sqrt 2 := Real.sqrt_pos.mpr (by norm_num)
  have hs2 : Real.sqrt 5 ^ 2 = 5 := Real.sq_sqrt (by norm_num)
  have ht2 : Real.sqrt 2 ^ 2 = 2 := Real.sq_sqrt (by norm_num)
  have e00 : cexA 0 0 = -2 := by simp [cexA]
  have e01 : cexA 0 1 = 2 := by simp [cexA]
  have e10 : cexA 1 0 = 1 := by simp [cexA]
  have e11 : cexA 1 1 = 1 := by simp [cexA]
  -- score of row 0 in the original matrix is 1/4
  have hn0 : norms cexA 0 = Real.sqrt 5 := by
    rw [norms, sum_univ_two' fun i => cexA i 0 ^ 2, e00, e10]
    norm_num
  have hn1 : norms cexA 1 = Real.sqrt 5 := by
    rw [norms, sum_univ_two' fun i => cexA i 1 ^ 2, e01, e11]
    norm_num
  have hsafe0 : safeNorms cexA 0 = Real.sqrt 5 := by
    rw [safeNorms, hn0, if_neg hspos.ne']
  have hsafe1 : safeNorms cexA 1 = Real.sqrt 5 := by
    rw [safeNorms, hn1, if_neg hspos.ne']
  have u00 : weighted cexA cexW 0 0 = -2 / Real.sqrt 5 := by
    rw [weighted, normalized, hsafe0, e00, cexW, mul_one]
  have u10 : weighted cexA cexW 1 0 = 1 / Real.sqrt 5 := by
    rw [weighted, normalized, hsafe0, e10, cexW, mul_one]
  have u01 : weighted cexA cexW 0 1 = 2 / Real.sqrt 5 := by
    rw [weighted, normalized, hsafe1, e01, cexW, mul_one]
  have u11 : weighted cexA cexW 1 1 = 1 / Real.sqrt 5 := by
    rw [weighted, normalized, hsafe1, e11, cexW, mul_one]
  have hb0 : idealBest cexA cexW cexI 0 = 1 / Real.sqrt 5 := by
    simp only [idealBest, cexI]
    rw [sup'_univ_two fun i => weighted cexA cexW i 0, u00, u10]
    exact max_eq_right ((div_le_div_iff_of_pos_right hspos).mpr (by norm_num))
  have hb1 : idealBest cexA cexW cexI 1 = 2 / Real.sqrt 5 := by
    simp only [idealBest, cexI]
    rw [sup'_univ_two fun i => weighted cexA cexW i 1, u01, u11]
    exact max_eq_left ((div_le_div_iff_of_pos_right hspos).mpr (by norm_num))
  have hq0 : idealWorst cexA cexW cexI 0 = -2 / Real.sqrt 5 := by
    simp only [idealWorst, cexI]
    rw [inf'_univ_two fun i => weighted cexA cexW i 0, u00, u10]
    exact min_eq_left ((div_le_div_iff_of_pos_right hspos).mpr (by norm_num))
  have hq1 : idealWorst cexA cexW cexI 1 = 1 / Real.sqrt 5 := by
    simp only [idealWorst, cexI]
    rw [inf'_univ_two fun i => weighted cexA cexW i 1, u01, u11]
    exact min_eq_right ((div_le_div_iff_of_pos_right hspos).mpr (by norm_num))
  have hdb : distance_best cexA cexW cexI 0 = 3 / Real.sqrt 5 := by
    rw [distance_best, sum_univ_two'
      fun j => (weighted cexA cexW 0 j - idealBest cexA cexW cexI j) ^ 2,
      u00, u01, hb0, hb1]
    rw [show (-2 / Real.sqrt 5 - 1 / Real.sqrt 5) ^ 2 +
        (2 / Real.sqrt 5 - 2 / Real.sqrt 5) ^ 2 = (3 / Real.sqrt 5) ^ 2 from by ring]
    exact Real.sqrt_sq (by positivity)
  have hdw : distance_worst cexA cexW cexI 0 = 1 / Real.sqrt 5 := by
    rw [distance_worst, sum_univ_two'
      fun j => (weighted cexA cexW 0 j - idealWorst cexA cexW cexI j) ^ 2,
      u00, u01, hq0, hq1]
    rw [show (-2 / Real.sqrt 5 - -2 / Real.sqrt 5) ^ 2 +
        (2 / Real.sqrt 5 - 1 / Real.sqrt 5) ^ 2 = (1 / Real.sqrt 5) ^ 2 from by ring]
    exact Real.sqrt_sq (by positivity)
  have hscoreA : topsis_score cexA cexW cexI 0 = 1 / 4 := by
    rw [topsis_score, hdb, hdw,
      show 3 / Real.sqrt 5 + 1 / Real.sqrt 5 = 4 / Real.sqrt 5 from by ring,
      if_neg (by positivity : (4 : ℝ) / Real.sqrt 5 ≠ 0)]
    rw [div_div_div_cancel_right₀]
    · norm_num
  -- score of row 0 in the updated matrix
  have f00 : updateEntry cexA 0 0 (-1) 0 0 = -1 := updateEntry_same cexA 0 0 (-1)
  have f01 : updateEntry cexA 0 0 (-1) 0 1 = 2 := by
    rw [updateEntry_ne_col cexA 0 0 (-1) 0 1 (by decide), e01]
  have f10 : updateEntry cexA 0 0 (-1) 1 0 = 1 := by
    rw [updateEntry_ne_row cexA 0 0 (-1) 1 0 (by decide), e10]
  have f11 : updateEntry cexA 0 0 (-1) 1 1 = 1 := by
    rw [updateEntry_ne_row cexA 0 0 (-1) 1 1 (by decide), e11]
  have gn0 : norms (updateEntry cexA 0 0 (-1)) 0 = Real.sqrt 2 := by
    rw [norms, sum_univ_two' fun i => updateEntry cexA 0 0 (-1) i 0 ^ 2, f00, f10]
    norm_num
  have gn1 : norms (updateEntry cexA 0 0 (-1)) 1 = Real.sqrt 5 := by
    rw [norms, sum_univ_two' fun i => updateEntry cexA 0 0 (-1) i 1 ^ 2, f01, f11]
    norm_num
  have gsafe0 : safeNorms (updateEntry cexA 0 0 (-1)) 0 = Real.sqrt 2 := by
    rw [safeNorms, gn0, if_neg htpos.ne']
  have gsafe1 : safeNorms (updateEntry cexA 0 0 (-1)) 1 = Real.sqrt 5 := by
    rw [safeNorms, gn1, if_neg hspos.ne']
  have v00 : weighted (updateEntry cexA 0 0 (-1)) cexW 0 0 = -1 / Real.sqrt 2 := by
    rw [weighted, normalized, gsafe0, f00, cexW, mul_one]
  have v10 : weighted (updateEntry cexA 0 0 (-1)) cexW 1 0 = 1 / Real.sqrt 2 := by
    rw [weighted, normalized, gsafe0, f10, cexW, mul_one]
  have v01 : weighted (updateEntry cexA 0 0 (-1)) cexW 0 1 = 2 / Real.sqrt 5 := by
    rw [weighted, normalized, gsafe1, f01, cexW, mul_one]
  have v11 : weighted (updateEntry cexA 0 0 (-1)) cexW 1 1 = 1 / Real.sqrt 5 := by
    rw [weighted, normalized, gsafe1, f11, cexW, mul_one]
  have gb0 : idealBest (updateEntry cexA 0 0 (-1)) cexW cexI 0 = 1 / Real.sqrt 2 := by
    simp only [idealBest, cexI]
    rw [sup'_univ_two fun i => weighted (updateEntry cexA 0 0 (-1)) cexW i 0, v00, v10]
    exact max_eq_right ((div_le_div_iff_of_pos_right htpos).mpr (by norm_num))
  have gb1 : idealBest (updateEntry cexA 0 0 (-1)) cexW cexI 1 = 2 / Real.sqrt 5 := by
    simp only [idealBest, cexI]
    rw [sup'_univ_two fun i => weighted (updateEntry cexA 0 0 (-1)) cexW i 1, v01, v11]
    exact max_eq_left ((div_le_div_iff_of_pos_right hspos).mpr (by norm_num))
  have gq0 : idealWorst (updateEntry cexA 0 0 (-1)) cexW cexI 0 = -1 / Real.sqrt 2 := by
    simp only [idealWorst, cexI]
    rw [inf'_univ_two fun i => weighted (updateEntry cexA 0 0 (-1)) cexW i 0, v00, v10]
    exact min_eq_left ((div_le_div_iff_of_pos_right htpos).mpr (by norm_num))
  have gq1 : idealWorst (updateEntry cexA 0 0 (-1)) cexW cexI 1 = 1 / Real.sqrt 5 := by
    simp only [idealWorst, cexI]
    rw [inf'_univ_two fun i => weighted (updateEntry cexA 0 0 (-1)) cexW i 1, v01, v11]
    exact min_eq_right ((div_le_div_iff_of_pos_right hspos).mpr (by norm_num))
  have gdb : distance_best (updateEntry cexA 0 0 (-1)) cexW cexI 0 = 2 / Real.sqrt 2 := by
    rw [distance_best, sum_univ_two' fun j =>
      (weighted (updateEntry cexA 0 0 (-1)) cexW 0 j -
        idealBest (updateEntry cexA 0 0 (-1)) cexW cexI j) ^ 2,
      v00, v01, gb0, gb1]
    rw [show (-1 / Real.sqrt 2 - 1 / Real.sqrt 2) ^ 2 +
        (2 / Real.sqrt 5 - 2 / Real.sqrt 5) ^ 2 = (2 / Real.sqrt 2) ^ 2 from by ring]
    exact Real.sqrt_sq (by positivity)
  have gdw : distance_worst (updateEntry cexA 0 0 (-1)) cexW cexI 0 = 1 / Real.sqrt 5 := by
    rw [distance_worst, sum_univ_two' fun j =>
      (weighted (updateEntry cexA 0 0 (-1)) cexW 0 j -
        idealWorst (updateEntry cexA 0 0 (-1)) cexW cexI j) ^ 2,
      v00, v01, gq0, gq1]
    rw [show (-1 / Real.sqrt 2 - -1 / Real.sqrt 2) ^ 2 +
        (2 / Real.sqrt 5 - 1 / Real.sqrt 5) ^ 2 = (1 / Real.sqrt 5) ^ 2 from by ring]
    exact Real.sqrt_sq (by positivity)
  have hdenpos : (0 : ℝ) < 2 / Real.sqrt 2 + 1 / Real.sqrt 5 :=
    add_pos (div_pos (by norm_num) htpos) (div_pos (by norm_num) hspos)
  have hscoreB : topsis_score (updateEntry cexA 0 0 (-1)) cexW cexI 0 =
      (1 / Real.sqrt 5) / (2 / Real.sqrt 2 + 1 / Real.sqrt 5) := by
    rw [topsis_score, gdb, gdw, if_neg hdenpos.ne']
  -- the updated score is strictly smaller
  have h3t2s : 3 * Real.sqrt 2 < 2 * Real.sqrt 5 := by
    refine lt_of_pow_lt_pow_left₀ 2 (by positivity) ?_
    rw [mul_pow, mul_pow, hs2, ht2]
    norm_num
  have hkey : 3 / Real.sqrt 5 < 2 / Real.sqrt 2 := by
    rw [div_lt_div_iff₀ hspos htpos]
    linarith
  have hfinal : (1 / Real.sqrt 5) / (2 / Real.sqrt 2 + 1 / Real.sqrt 5) < 1 / 4 := by
    rw [div_lt_div_iff₀ hdenpos (by norm_num : (0 : ℝ) < 4)]
    have h1 : 1 / Real.sqrt 5 * 4 = 3 / Real.sqrt 5 + 1 / Real.sqrt 5 := by ring
    have h2 : 1 * (2 / Real.sqrt 2 + 1 / Real.sqrt 5) =
        2 / Real.sqrt 2 + 1 / Real.sqrt 5 := by ring
    rw [h1, h2]
    linarith
  refine ⟨rfl, by rw [e00]; norm_num, ?_⟩
  rw [hscoreA, hscoreB]
  exact hfinal

end Topsis
